import Mathlib

/-!
Verification of the topology-resolution logic of `byteps/common/__init__.py`.

The file embeds the derivation performed by `BytePSBasics.init` when its
arguments are left to default: the worker list is an ordered list of
`"ip:port"` strings, `myRank` indexes the current process's own endpoint,
and a single linear scan computes `local_size` (count of same-ip endpoints)
and `local_rank` (snapshot of `local_size` at the moment the scan meets an
endpoint whose ip and port both equal the current process's own).
It also embeds the four sentinel-checking accessors `size`, `local_size`,
`rank` and `local_rank`.
-/

namespace BytePS

/-- Possible failures of the topology derivation.  `rankOutOfBounds` models
the `IndexError` of `workers[rank]`, `badEndpoint` the `ValueError` of an
`"ip:port"` split that does not produce exactly two parts, and
`unboundLocalRank` the `TypeError` raised when the loop never assigned
`local_rank` and `None` reaches `ctypes.c_int`. -/
inductive InitError where
  | rankOutOfBounds
  | badEndpoint
  | unboundLocalRank
deriving Repr, DecidableEq

/-- The tuple handed to `byteps_init`. -/
structure Topology where
  rank : Nat
  local_rank : Nat
  size : Nat
  local_size : Nat
deriving Repr, DecidableEq

/-- Split a character sequence at every `':'`, keeping empty pieces, exactly
as Python's `str.split(":")` does on the underlying characters. -/
def splitColon : List Char → List (List Char)
  | [] => [[]]
  | c :: rest =>
    if c = ':' then [] :: splitColon rest
    else
      match splitColon rest with
      | [] => [[c]]
      | s :: ss => (c :: s) :: ss

/-- Model of `my_ip, my_port = worker.split(":")`: succeeds exactly when
splitting on the colon separator yields two substrings. -/
def splitEndpoint (w : String) : Option (String × String) :=
  match (splitColon w.data).map (fun l => String.mk l) with
  | [ip, port] => some (ip, port)
  | _ => none

/-- The loop body of `init`, on the raw worker strings: each worker is split;
a same-ip worker bumps `local_size`, and a worker matching both `my_ip` and
`my_port` additionally snapshots `local_rank := local_size` before the bump. -/
def scanWorkers (my_ip my_port : String) :
    List String → Nat → Option Nat → Except InitError (Nat × Option Nat)
  | [], ls, lr => Except.ok (ls, lr)
  | w :: rest, ls, lr =>
    match splitEndpoint w with
    | none => Except.error InitError.badEndpoint
    | some (ip, port) =>
      if ip = my_ip then
        if port = my_port then
          scanWorkers my_ip my_port rest (ls + 1) (some ls)
        else
          scanWorkers my_ip my_port rest (ls + 1) lr
      else
        scanWorkers my_ip my_port rest ls lr

/-- The derivation of `BytePSBasics.init` with all arguments defaulted:
index the own endpoint, split it, scan the whole list, and package the
resulting topology. -/
def init (workers : List String) (myRank : Nat) : Except InitError Topology :=
  match workers[myRank]? with
  | none => Except.error InitError.rankOutOfBounds
  | some myEp =>
    match splitEndpoint myEp with
    | none => Except.error InitError.badEndpoint
    | some (my_ip, my_port) =>
      match scanWorkers my_ip my_port workers 0 none with
      | Except.error e => Except.error e
      | Except.ok (local_size, some local_rank) =>
        Except.ok ⟨myRank, local_rank, workers.length, local_size⟩
      | Except.ok (_, none) => Except.error InitError.unboundLocalRank

/-- Parse every worker string, failing when any split fails. -/
def parseAll : List String → Option (List (String × String))
  | [] => some []
  | w :: ws =>
    match splitEndpoint w, parseAll ws with
    | some e, some es => some (e :: es)
    | _, _ => none

/-- The scan on an already-parsed list (pure counterpart of `scanWorkers`). -/
def scanParsed (my_ip my_port : String) :
    List (String × String) → Nat → Option Nat → Nat × Option Nat
  | [], ls, lr => (ls, lr)
  | (ip, port) :: rest, ls, lr =>
    if ip = my_ip then
      if port = my_port then
        scanParsed my_ip my_port rest (ls + 1) (some ls)
      else
        scanParsed my_ip my_port rest (ls + 1) lr
    else
      scanParsed my_ip my_port rest ls lr

/-- Number of parsed endpoints whose ip component equals `ip`. -/
def countIp (ip : String) (l : List (String × String)) : Nat :=
  (l.filter (fun e => e.1 = ip)).length

/-- The sentinel-checking accessor `BytePSBasics.size`: raises when the
native call returned `-1`, otherwise forwards the value. -/
def sizeAccessor (nativeVal : Int) : Except Unit Int :=
  if nativeVal = -1 then Except.error () else Except.ok nativeVal

/-- The sentinel-checking accessor `BytePSBasics.local_size`. -/
def localSizeAccessor (nativeVal : Int) : Except Unit Int :=
  if nativeVal = -1 then Except.error () else Except.ok nativeVal

/-- The sentinel-checking accessor `BytePSBasics.rank`. -/
def rankAccessor (nativeVal : Int) : Except Unit Int :=
  if nativeVal = -1 then Except.error () else Except.ok nativeVal

/-- The sentinel-checking accessor `BytePSBasics.local_rank`. -/
def localRankAccessor (nativeVal : Int) : Except Unit Int :=
  if nativeVal = -1 then Except.error () else Except.ok nativeVal

/-- The derived `local_rank` of the worker at index `i`, when the derivation
succeeds. -/
def localRankAt (workers : List String) (i : Nat) : Option Nat :=
  match init workers i with
  | Except.ok t => some t.local_rank
  | Except.error _ => none

/-- Indices of the workers in `eps` whose ip component equals `ip`, in
sequence order. -/
def groupIndices (eps : List (String × String)) (ip : String) : List Nat :=
  (List.range eps.length).filter (fun i => decide ((eps[i]?).map Prod.fst = some ip))

theorem scanParsed_fst (my_ip my_port : String) :
    ∀ (l : List (String × String)) (ls : Nat) (lr : Option Nat),
      (scanParsed my_ip my_port l ls lr).1 = ls + countIp my_ip l := by
  intro l
  induction l with
  | nil => intro ls lr; simp [scanParsed, countIp]
  | cons e rest ih =>
    intro ls lr
    obtain ⟨ip, port⟩ := e
    by_cases hip : ip = my_ip
    · by_cases hpt : port = my_port
      · simp [scanParsed, hip, hpt, ih, countIp, List.filter]
        omega
      · simp [scanParsed, hip, hpt, ih, countIp, List.filter]
        omega
    · simp [scanParsed, hip, ih, countIp, List.filter]

theorem scanParsed_append (my_ip my_port : String) :
    ∀ (l₁ l₂ : List (String × String)) (ls : Nat) (lr : Option Nat),
      scanParsed my_ip my_port (l₁ ++ l₂) ls lr =
        scanParsed my_ip my_port l₂ (scanParsed my_ip my_port l₁ ls lr).1
          (scanParsed my_ip my_port l₁ ls lr).2 := by
  intro l₁
  induction l₁ with
  | nil => intro l₂ ls lr; simp [scanParsed]
  | cons e rest ih =>
    intro l₂ ls lr
    obtain ⟨ip, port⟩ := e
    by_cases hip : ip = my_ip
    · by_cases hpt : port = my_port
      · simp [scanParsed, hip, hpt, ih]
      · simp [scanParsed, hip, hpt, ih]
    · simp [scanParsed, hip, ih]

theorem scanParsed_snd_of_not_mem (my_ip my_port : String) :
    ∀ (l : List (String × String)) (ls : Nat) (lr : Option Nat),
      (my_ip, my_port) ∉ l → (scanParsed my_ip my_port l ls lr).2 = lr := by
  intro l
  induction l with
  | nil => intro ls lr _; simp [scanParsed]
  | cons e rest ih =>
    intro ls lr hmem
    obtain ⟨ip, port⟩ := e
    have hrest : (my_ip, my_port) ∉ rest := fun h => hmem (List.mem_cons_of_mem _ h)
    by_cases hip : ip = my_ip
    · by_cases hpt : port = my_port
      · exact absurd (by simp [hip, hpt]) hmem
      · simp [scanParsed, hip, hpt, ih _ _ hrest]
    · simp [scanParsed, hip, ih _ _ hrest]

theorem exists_last_decomp {α : Type} {a : α} :
    ∀ {l : List α}, a ∈ l → ∃ pre post, l = pre ++ a :: post ∧ a ∉ post := by
  intro l
  induction l with
  | nil => intro h; cases h
  | cons b rest ih =>
    intro h
    by_cases hmem : a ∈ rest
    · obtain ⟨pre, post, heq, hpost⟩ := ih hmem
      exact ⟨b :: pre, post, by rw [heq]; rfl, hpost⟩
    · have hab : a = b := by
        rcases List.mem_cons.mp h with h' | h'
        · exact h'
        · exact absurd h' hmem
      exact ⟨[], rest, by rw [hab]; rfl, hmem⟩

theorem countIp_append (ip : String) (l₁ l₂ : List (String × String)) :
    countIp ip (l₁ ++ l₂) = countIp ip l₁ + countIp ip l₂ := by
  simp [countIp, List.filter_append]

theorem scanParsed_master (my_ip my_port : String)
    (pre post : List (String × String)) (hpost : (my_ip, my_port) ∉ post) :
    scanParsed my_ip my_port (pre ++ (my_ip, my_port) :: post) 0 none =
      (countIp my_ip (pre ++ (my_ip, my_port) :: post), some (countIp my_ip pre)) := by
  rw [scanParsed_append]
  have h1 : (scanParsed my_ip my_port pre 0 none).1 = countIp my_ip pre := by
    rw [scanParsed_fst]; omega
  rw [h1]
  show scanParsed my_ip my_port ((my_ip, my_port) :: post) (countIp my_ip pre) _ = _
  rw [show scanParsed my_ip my_port ((my_ip, my_port) :: post) (countIp my_ip pre)
        (scanParsed my_ip my_port pre 0 none).2 =
      scanParsed my_ip my_port post (countIp my_ip pre + 1) (some (countIp my_ip pre)) from by
    simp [scanParsed]]
  have h2 := scanParsed_snd_of_not_mem my_ip my_port post
    (countIp my_ip pre + 1) (some (countIp my_ip pre)) hpost
  have h3 := scanParsed_fst my_ip my_port post (countIp my_ip pre + 1) (some (countIp my_ip pre))
  have h4 : countIp my_ip (pre ++ (my_ip, my_port) :: post) =
      countIp my_ip pre + 1 + countIp my_ip post := by
    rw [countIp_append]
    simp [countIp, List.filter]
    omega
  rw [Prod.ext_iff]
  exact ⟨by rw [h3, h4], by rw [h2]⟩

theorem parseAll_length :
    ∀ {workers : List String} {eps : List (String × String)},
      parseAll workers = some eps → eps.length = workers.length := by
  intro workers
  induction workers with
  | nil => intro eps h; simp [parseAll] at h; simp [← h]
  | cons w ws ih =>
    intro eps h
    simp only [parseAll] at h
    cases hsp : splitEndpoint w with
    | none => rw [hsp] at h; exact absurd h (by simp)
    | some e =>
      rw [hsp] at h
      cases hpa : parseAll ws with
      | none => rw [hpa] at h; exact absurd h (by simp)
      | some es =>
        rw [hpa] at h
        simp at h
        rw [← h]
        simp [ih hpa]

theorem parseAll_isSome {workers : List String}
    (hwf : ∀ w ∈ workers, (splitEndpoint w).isSome) :
    ∃ eps, parseAll workers = some eps := by
  induction workers with
  | nil => exact ⟨[], rfl⟩
  | cons w ws ih =>
    obtain ⟨e, he⟩ := Option.isSome_iff_exists.mp (hwf w (List.mem_cons_self w ws))
    obtain ⟨es, hes⟩ := ih (fun x hx => hwf x (List.mem_cons_of_mem _ hx))
    exact ⟨e :: es, by simp [parseAll, he, hes]⟩

theorem parseAll_getElem? :
    ∀ {workers : List String} {eps : List (String × String)},
      parseAll workers = some eps →
      ∀ (i : Nat) (w : String), workers[i]? = some w → splitEndpoint w = eps[i]? := by
  intro workers
  induction workers with
  | nil => intro eps _ i w hw; simp at hw
  | cons x ws ih =>
    intro eps h i w hw
    simp only [parseAll] at h
    cases hsp : splitEndpoint x with
    | none => rw [hsp] at h; exact absurd h (by simp)
    | some e =>
      rw [hsp] at h
      cases hpa : parseAll ws with
      | none => rw [hpa] at h; exact absurd h (by simp)
      | some es =>
        rw [hpa] at h
        simp at h
        subst h
        cases i with
        | zero =>
          simp at hw
          subst hw
          simpa using hsp
        | succ i =>
          simp at hw ⊢
          exact ih hpa i w hw

theorem scanWorkers_parsed (my_ip my_port : String) :
    ∀ {workers : List String} {eps : List (String × String)},
      parseAll workers = some eps →
      ∀ (ls : Nat) (lr : Option Nat),
        scanWorkers my_ip my_port workers ls lr =
          Except.ok (scanParsed my_ip my_port eps ls lr) := by
  intro workers
  induction workers with
  | nil =>
    intro eps h ls lr
    simp [parseAll] at h
    subst h
    simp [scanWorkers, scanParsed]
  | cons w ws ih =>
    intro eps h ls lr
    simp only [parseAll] at h
    cases hsp : splitEndpoint w with
    | none => rw [hsp] at h; exact absurd h (by simp)
    | some e =>
      rw [hsp] at h
      cases hpa : parseAll ws with
      | none => rw [hpa] at h; exact absurd h (by simp)
      | some es =>
        rw [hpa] at h
        simp at h
        subst h
        obtain ⟨ip, port⟩ := e
        by_cases hip : ip = my_ip
        · by_cases hpt : port = my_port
          · simp [scanWorkers, scanParsed, hsp, hip, hpt, ih hpa]
          · simp [scanWorkers, scanParsed, hsp, hip, hpt, ih hpa]
        · simp [scanWorkers, scanParsed, hsp, hip, ih hpa]

theorem scanWorkers_error (my_ip my_port : String) :
    ∀ {workers : List String},
      (∃ w ∈ workers, splitEndpoint w = none) →
      ∀ (ls : Nat) (lr : Option Nat),
        scanWorkers my_ip my_port workers ls lr = Except.error InitError.badEndpoint := by
  intro workers
  induction workers with
  | nil => intro h; exact absurd h (by simp)
  | cons w ws ih =>
    intro h ls lr
    cases hsp : splitEndpoint w with
    | none => simp [scanWorkers, hsp]
    | some e =>
      have hws : ∃ x ∈ ws, splitEndpoint x = none := by
        obtain ⟨x, hx, hnone⟩ := h
        rcases List.mem_cons.mp hx with h' | h'
        · subst h'; rw [hsp] at hnone; cases hnone
        · exact ⟨x, h', hnone⟩
      obtain ⟨ip, port⟩ := e
      by_cases hip : ip = my_ip
      · by_cases hpt : port = my_port
        · simp [scanWorkers, hsp, hip, hpt, ih hws]
        · simp [scanWorkers, hsp, hip, hpt, ih hws]
      · simp [scanWorkers, hsp, hip, ih hws]

theorem init_master (workers : List String) (eps : List (String × String)) (myRank : Nat)
    (e : String × String) (hp : parseAll workers = some eps) (he : eps[myRank]? = some e) :
    ∃ pre post, eps = pre ++ e :: post ∧ e ∉ post ∧
      init workers myRank =
        Except.ok ⟨myRank, countIp e.1 pre, workers.length, countIp e.1 eps⟩ := by
  obtain ⟨mi, mp⟩ := e
  have hr : myRank < eps.length := by
    by_contra hge
    rw [List.getElem?_eq_none (Nat.le_of_not_lt hge)] at he
    cases he
  have hlen := parseAll_length hp
  have hrw : myRank < workers.length := hlen ▸ hr
  have hw : workers[myRank]? = some workers[myRank] := List.getElem?_eq_getElem hrw
  have hsp : splitEndpoint workers[myRank] = some (mi, mp) := by
    rw [parseAll_getElem? hp myRank workers[myRank] hw, he]
  have hmem : (mi, mp) ∈ eps := List.getElem?_mem he
  obtain ⟨pre, post, hdecomp, hpost⟩ := exists_last_decomp hmem
  refine ⟨pre, post, hdecomp, hpost, ?_⟩
  have hmaster : scanParsed mi mp eps 0 none =
      (countIp mi eps, some (countIp mi pre)) := by
    conv_lhs => rw [hdecomp]
    conv_rhs => rw [hdecomp]
    exact scanParsed_master mi mp pre post hpost
  have hscan := scanWorkers_parsed mi mp hp 0 none
  rw [hmaster] at hscan
  simp only [init, hw, hsp, hscan]

theorem getElem?_append_cons {α : Type} :
    ∀ (pre : List α) (e : α) (post : List α), (pre ++ e :: post)[pre.length]? = some e := by
  intro pre
  induction pre with
  | nil => intro e post; simp
  | cons x rest ih => intro e post; simpa using ih e post

theorem nodup_decomp_length {α : Type} {eps pre post : List α} {e : α} {i : Nat}
    (hnd : eps.Nodup) (hdecomp : eps = pre ++ e :: post) (he : eps[i]? = some e) :
    pre.length = i := by
  have hpl : eps[pre.length]? = some e := by rw [hdecomp]; exact getElem?_append_cons pre e post
  have hlt : pre.length < eps.length := by
    rw [hdecomp, List.length_append, List.length_cons]
    omega
  exact List.getElem?_inj hlt hnd (by rw [hpl, he])

/-- C2: the derived topology satisfies `0 ≤ local_rank < local_size ≤ size`
and `0 ≤ rank < size` for every well-formed endpoint list and in-bounds
`myRank`. -/
theorem init_topology_invariants (workers : List String) (myRank : Nat)
    (hwf : ∀ w ∈ workers, (splitEndpoint w).isSome) (hr : myRank < workers.length) :
    ∃ t, init workers myRank = Except.ok t ∧
      0 ≤ t.local_rank ∧ t.local_rank < t.local_size ∧ t.local_size ≤ t.size ∧
      0 ≤ t.rank ∧ t.rank < t.size := by
  obtain ⟨eps, hp⟩ := parseAll_isSome hwf
  have hlen := parseAll_length hp
  have hr' : myRank < eps.length := by omega
  obtain ⟨e, he⟩ : ∃ e, eps[myRank]? = some e := ⟨_, List.getElem?_eq_getElem hr'⟩
  obtain ⟨pre, post, hdecomp, hpost, hinit⟩ := init_master workers eps myRank e hp he
  refine ⟨_, hinit, Nat.zero_le _, ?_, ?_, Nat.zero_le _, ?_⟩
  · show countIp e.1 pre < countIp e.1 eps
    rw [hdecomp, countIp_append]
    have hhead : 0 < countIp e.1 (e :: post) := by
      simp [countIp, List.filter_cons]
    omega
  · show countIp e.1 eps ≤ workers.length
    calc countIp e.1 eps ≤ eps.length := List.length_filter_le _ _
    _ = workers.length := hlen
  · exact hr

/-- C5: the derived topology has `size` equal to the number of endpoints,
`rank` equal to `myRank` unchanged, and `local_size` equal to the count over
the whole list of endpoints sharing the ip of the endpoint at `myRank`. -/
theorem init_size_rank_local_size (workers : List String) (eps : List (String × String))
    (myRank : Nat) (e : String × String)
    (hp : parseAll workers = some eps) (he : eps[myRank]? = some e) :
    ∃ t, init workers myRank = Except.ok t ∧
      t.size = workers.length ∧ t.rank = myRank ∧ t.local_size = countIp e.1 eps := by
  obtain ⟨pre, post, hdecomp, hpost, hinit⟩ := init_master workers eps myRank e hp he
  exact ⟨_, hinit, rfl, rfl, rfl⟩

/-- C9: on a well-formed endpoint list with in-bounds `myRank`, the scan
always assigns `local_rank` (the endpoint at `myRank` matches its own ip and
port), so the derivation returns a topology and never the unbound-variable
failure. -/
theorem init_local_rank_assigned (workers : List String) (myRank : Nat)
    (hwf : ∀ w ∈ workers, (splitEndpoint w).isSome) (hr : myRank < workers.length) :
    (∃ t, init workers myRank = Except.ok t) ∧
      init workers myRank ≠ Except.error InitError.unboundLocalRank := by
  obtain ⟨eps, hp⟩ := parseAll_isSome hwf
  have hlen := parseAll_length hp
  have hr' : myRank < eps.length := by omega
  have he : eps[myRank]? = some eps[myRank] := List.getElem?_eq_getElem hr'
  obtain ⟨pre, post, hdecomp, hpost, hinit⟩ := init_master workers eps myRank _ hp he
  exact ⟨⟨_, hinit⟩, by rw [hinit]; intro h; cases h⟩

/-- C4: the derivation fails (with a configuration error, never a topology)
when `myRank` is out of bounds, when some endpoint string does not split into
exactly an ip and a port, or when the endpoint list is empty. -/
theorem init_error_conditions (workers : List String) (myRank : Nat)
    (h : workers.length ≤ myRank ∨ (∃ w ∈ workers, splitEndpoint w = none) ∨ workers = []) :
    ∃ err, init workers myRank = Except.error err ∧
      (err = InitError.rankOutOfBounds ∨ err = InitError.badEndpoint) := by
  rcases h with hoob | hbad | hnil
  · have hnone : workers[myRank]? = none := List.getElem?_eq_none hoob
    exact ⟨InitError.rankOutOfBounds, by simp [init, hnone], Or.inl rfl⟩
  · by_cases hr : myRank < workers.length
    · have hw : workers[myRank]? = some workers[myRank] := List.getElem?_eq_getElem hr
      cases hsp : splitEndpoint workers[myRank] with
      | none => exact ⟨InitError.badEndpoint, by simp [init, hw, hsp], Or.inr rfl⟩
      | some e =>
        obtain ⟨mi, mp⟩ := e
        have hscan := scanWorkers_error mi mp hbad 0 none
        exact ⟨InitError.badEndpoint, by simp [init, hw, hsp, hscan], Or.inr rfl⟩
    · have hnone : workers[myRank]? = none := List.getElem?_eq_none (Nat.le_of_not_lt hr)
      exact ⟨InitError.rankOutOfBounds, by simp [init, hnone], Or.inl rfl⟩
  · subst hnil
    exact ⟨InitError.rankOutOfBounds, by simp [init], Or.inl rfl⟩

theorem init_ok_take_of_nodup (workers : List String) (eps : List (String × String))
    (myRank : Nat) (e : String × String)
    (hp : parseAll workers = some eps) (hnd : eps.Nodup) (he : eps[myRank]? = some e) :
    init workers myRank =
      Except.ok ⟨myRank, countIp e.1 (eps.take myRank), workers.length, countIp e.1 eps⟩ := by
  obtain ⟨pre, post, hdecomp, hpost, hinit⟩ := init_master workers eps myRank e hp he
  have hlen : pre.length = myRank := nodup_decomp_length hnd hdecomp he
  have htake : eps.take myRank = pre := by
    rw [hdecomp, ← hlen, List.take_left]
  rw [hinit, htake]

/-- C1: with no duplicate `(ip, port)` entries, `local_rank` equals the number
of endpoints at indices strictly less than `myRank` whose ip equals the ip of
the endpoint at `myRank` — first-seen order among co-located endpoints. -/
theorem init_local_rank_first_seen (workers : List String) (eps : List (String × String))
    (myRank : Nat) (e : String × String)
    (hp : parseAll workers = some eps) (hnd : eps.Nodup) (he : eps[myRank]? = some e) :
    ∃ t, init workers myRank = Except.ok t ∧
      t.local_rank = countIp e.1 (eps.take myRank) :=
  ⟨_, init_ok_take_of_nodup workers eps myRank e hp hnd he, rfl⟩

/-- C10: with duplicate entries equal to the own endpoint, the scan's last
match wins: `local_rank` equals the count of same-ip endpoints at indices
strictly before the last index whose `(ip, port)` pair equals the own pair. -/
theorem init_local_rank_last_match (workers : List String) (eps : List (String × String))
    (myRank j : Nat) (e : String × String)
    (hp : parseAll workers = some eps) (he : eps[myRank]? = some e)
    (_hdup : ∃ i, i ≠ myRank ∧ eps[i]? = some e)
    (hj : eps[j]? = some e)
    (hlast : ∀ i, j < i → i < eps.length → eps[i]? ≠ some e) :
    ∃ t, init workers myRank = Except.ok t ∧
      t.local_rank = countIp e.1 (eps.take j) := by
  obtain ⟨pre, post, hdecomp, hpost, hinit⟩ := init_master workers eps myRank e hp he
  have hpl : eps[pre.length]? = some e := by
    rw [hdecomp]; exact getElem?_append_cons pre e post
  have hpllt : pre.length < eps.length := by
    rw [hdecomp, List.length_append, List.length_cons]; omega
  have hjlen : j = pre.length := by
    rcases Nat.lt_trichotomy j pre.length with hlt | heq | hgt
    · exact absurd hpl (hlast pre.length hlt hpllt)
    · exact heq
    · exfalso
      apply hpost
      have hjlt : j < eps.length := by
        by_contra hge
        rw [List.getElem?_eq_none (Nat.le_of_not_lt hge)] at hj
        cases hj
      have hpost' : post[j - pre.length - 1]? = some e := by
        rw [hdecomp] at hj
        rw [List.getElem?_append_right (Nat.le_of_lt hgt)] at hj
        rcases Nat.exists_eq_add_of_lt hgt with ⟨k, hk⟩
        have : j - pre.length = k + 1 := by omega
        rw [this] at hj
        simpa [this] using hj
      exact List.getElem?_mem hpost'
  have htake : eps.take j = pre := by
    rw [hdecomp, hjlen, List.take_left]
  exact ⟨_, hinit, by rw [htake]⟩

/-- C6: the three concrete scenarios on the list
`["10.0.0.1:2000", "10.0.0.1:2001", "10.0.0.2:2000"]`. -/
theorem init_scenarios :
    init ["10.0.0.1:2000", "10.0.0.1:2001", "10.0.0.2:2000"] 1 =
        Except.ok ⟨1, 1, 3, 2⟩ ∧
      (splitEndpoint "10.0.0.1:2001").map Prod.fst = some "10.0.0.1" ∧
      init ["10.0.0.1:2000", "10.0.0.1:2001", "10.0.0.2:2000"] 0 =
        Except.ok ⟨0, 0, 3, 2⟩ ∧
      init ["10.0.0.1:2000", "10.0.0.1:2001", "10.0.0.2:2000"] 2 =
        Except.ok ⟨2, 0, 3, 1⟩ := by
  refine ⟨rfl, rfl, rfl, rfl⟩

/-- C7: each accessor raises exactly when the native call returned the
sentinel `-1`, and otherwise forwards the native integer unchanged. -/
theorem accessors_sentinel (n : Int) :
    ((sizeAccessor n = Except.error () ↔ n = -1) ∧
      (n ≠ -1 → sizeAccessor n = Except.ok n)) ∧
    ((localSizeAccessor n = Except.error () ↔ n = -1) ∧
      (n ≠ -1 → localSizeAccessor n = Except.ok n)) ∧
    ((rankAccessor n = Except.error () ↔ n = -1) ∧
      (n ≠ -1 → rankAccessor n = Except.ok n)) ∧
    ((localRankAccessor n = Except.error () ↔ n = -1) ∧
      (n ≠ -1 → localRankAccessor n = Except.ok n)) := by
  unfold sizeAccessor localSizeAccessor rankAccessor localRankAccessor
  by_cases h : n = -1 <;> simp [h]

/-- C8: the derivation is deterministic — equal inputs give equal topologies
(the embedding is a pure function of the worker list and `myRank`). -/
theorem init_deterministic (w₁ w₂ : List String) (r₁ r₂ : Nat)
    (hw : w₁ = w₂) (hr : r₁ = r₂) :
    init w₁ r₁ = init w₂ r₂ := by
  rw [hw, hr]

theorem range_filter_enum (p : Nat → Bool) :
    ∀ n : Nat,
      ((List.range n).filter p).map (fun i => ((List.range i).filter p).length) =
        List.range ((List.range n).filter p).length := by
  intro n
  induction n with
  | zero => rfl
  | succ n ih =>
    rw [List.range_succ, List.filter_append]
    by_cases h : p n
    · simp only [List.filter_cons, h, if_true, List.filter_nil, List.map_append,
        List.map_cons, List.map_nil, ih, List.length_append, List.length_cons,
        List.length_nil]
      rw [List.range_succ]
    · simp [List.filter_cons, h, ih]

theorem countIp_take_eq (eps : List (String × String)) (ip : String) :
    ∀ i : Nat, i ≤ eps.length →
      countIp ip (eps.take i) =
        ((List.range i).filter
          (fun j => decide ((eps[j]?).map Prod.fst = some ip))).length := by
  intro i
  induction i with
  | zero => intro _; rfl
  | succ i ih =>
    intro hle
    have hlt : i < eps.length := by omega
    have hsome : eps[i]? = some eps[i] := List.getElem?_eq_getElem hlt
    rw [List.take_succ, List.range_succ, List.filter_append, List.length_append,
        countIp_append, ih (by omega), hsome]
    simp only [List.filter_cons, List.filter_nil, hsome, Option.map_some,
      Option.toList_some]
    by_cases hip : (eps[i]).1 = ip
    · simp [countIp, List.filter_cons, hip]
    · simp [countIp, List.filter_cons, hip]

/-- C3: with no duplicate `(ip, port)` entries, running the derivation once
per endpoint with its own index as `myRank` gives, within each ip group, the
`local_rank` values `0, 1, ..., k-1` in first-seen sequence order. -/
theorem init_group_contiguous (workers : List String) (eps : List (String × String))
    (hp : parseAll workers = some eps) (hnd : eps.Nodup) (ip : String) :
    (groupIndices eps ip).map (localRankAt workers) =
      (List.range (groupIndices eps ip).length).map some := by
  have hmem : ∀ i ∈ groupIndices eps ip,
      i < eps.length ∧ (eps[i]?).map Prod.fst = some ip := by
    intro i hi
    have := List.mem_filter.mp hi
    exact ⟨List.mem_range.mp this.1, of_decide_eq_true this.2⟩
  have hmap : ∀ i ∈ groupIndices eps ip,
      localRankAt workers i = some (countIp ip (eps.take i)) := by
    intro i hi
    obtain ⟨hilt, hip⟩ := hmem i hi
    obtain ⟨e, he, hefst⟩ : ∃ e, eps[i]? = some e ∧ e.1 = ip := by
      cases hcase : eps[i]? with
      | none => rw [hcase] at hip; cases hip
      | some e => rw [hcase] at hip; exact ⟨e, rfl, by simpa using hip⟩
    have hinit := init_ok_take_of_nodup workers eps i e hp hnd he
    simp [localRankAt, hinit, hefst]
  have hstep : (groupIndices eps ip).map (localRankAt workers) =
      (groupIndices eps ip).map
        (fun i => some (((List.range i).filter
          (fun j => decide ((eps[j]?).map Prod.fst = some ip))).length)) := by
    apply List.map_congr_left
    intro i hi
    rw [hmap i hi, countIp_take_eq eps ip i (Nat.le_of_lt (hmem i hi).1)]
  rw [hstep]
  have hcomp : (groupIndices eps ip).map
      (fun i => some (((List.range i).filter
        (fun j => decide ((eps[j]?).map Prod.fst = some ip))).length)) =
      ((groupIndices eps ip).map
        (fun i => ((List.range i).filter
          (fun j => decide ((eps[j]?).map Prod.fst = some ip))).length)).map some := by
    rw [List.map_map]
    rfl
  rw [hcomp]
  have henum := range_filter_enum
    (fun j => decide ((eps[j]?).map Prod.fst = some ip)) eps.length
  rw [show groupIndices eps ip =
      (List.range eps.length).filter
        (fun j => decide ((eps[j]?).map Prod.fst = some ip)) from rfl]
  rw [henum]

theorem init_local_rank_first_seen_witness :
    ∃ t, init ["10.0.0.1:2000", "10.0.0.1:2001", "10.0.0.2:2000"] 1 = Except.ok t ∧
      t.local_rank = countIp "10.0.0.1"
        ([("10.0.0.1", "2000"), ("10.0.0.1", "2001"), ("10.0.0.2", "2000")].take 1) :=
  init_local_rank_first_seen _ _ 1 ("10.0.0.1", "2001") rfl (by decide) rfl

theorem init_topology_invariants_witness :
    ∃ t, init ["10.0.0.1:2000", "10.0.0.1:2001", "10.0.0.2:2000"] 1 = Except.ok t ∧
      0 ≤ t.local_rank ∧ t.local_rank < t.local_size ∧ t.local_size ≤ t.size ∧
      0 ≤ t.rank ∧ t.rank < t.size :=
  init_topology_invariants _ 1 (by decide) (by decide)

theorem init_group_contiguous_witness :
    (groupIndices [("10.0.0.1", "2000"), ("10.0.0.1", "2001"), ("10.0.0.2", "2000")]
        "10.0.0.1").map
        (localRankAt ["10.0.0.1:2000", "10.0.0.1:2001", "10.0.0.2:2000"]) =
      (List.range (groupIndices [("10.0.0.1", "2000"), ("10.0.0.1", "2001"),
        ("10.0.0.2", "2000")] "10.0.0.1").length).map some :=
  init_group_contiguous ["10.0.0.1:2000", "10.0.0.1:2001", "10.0.0.2:2000"]
    [("10.0.0.1", "2000"), ("10.0.0.1", "2001"), ("10.0.0.2", "2000")]
    rfl (by decide) "10.0.0.1"

theorem init_error_conditions_witness :
    ∃ err, init ["10.0.0.1:2000", "10.0.0.1:2001", "10.0.0.2:2000"] 5 = Except.error err ∧
      (err = InitError.rankOutOfBounds ∨ err = InitError.badEndpoint) :=
  init_error_conditions _ 5 (Or.inl (by decide))

theorem init_size_rank_local_size_witness :
    ∃ t, init ["10.0.0.1:2000", "10.0.0.1:2001", "10.0.0.2:2000"] 1 = Except.ok t ∧
      t.size = 3 ∧ t.rank = 1 ∧ t.local_size = countIp "10.0.0.1"
        [("10.0.0.1", "2000"), ("10.0.0.1", "2001"), ("10.0.0.2", "2000")] :=
  init_size_rank_local_size _ _ 1 ("10.0.0.1", "2001") rfl rfl

theorem accessors_sentinel_witness :
    sizeAccessor 7 = Except.ok 7 ∧ localSizeAccessor 7 = Except.ok 7 ∧
      rankAccessor 7 = Except.ok 7 ∧ localRankAccessor 7 = Except.ok 7 :=
  ⟨(accessors_sentinel 7).1.2 (by decide), (accessors_sentinel 7).2.1.2 (by decide),
    (accessors_sentinel 7).2.2.1.2 (by decide), (accessors_sentinel 7).2.2.2.2 (by decide)⟩

theorem init_deterministic_witness :
    init ["10.0.0.1:2000"] 0 = init ["10.0.0.1:2000"] 0 :=
  init_deterministic _ _ 0 0 rfl rfl

theorem init_local_rank_assigned_witness :
    (∃ t, init ["10.0.0.1:2000", "10.0.0.1:2001", "10.0.0.2:2000"] 2 = Except.ok t) ∧
      init ["10.0.0.1:2000", "10.0.0.1:2001", "10.0.0.2:2000"] 2 ≠
        Except.error InitError.unboundLocalRank :=
  init_local_rank_assigned _ 2 (by decide) (by decide)

theorem init_local_rank_last_match_witness :
    ∃ t, init ["10.0.0.1:2000", "10.0.0.1:2000"] 0 = Except.ok t ∧
      t.local_rank = countIp "10.0.0.1"
        ([("10.0.0.1", "2000"), ("10.0.0.1", "2000")].take 1) :=
  init_local_rank_last_match _ _ 0 1 ("10.0.0.1", "2000") rfl rfl
    ⟨1, by decide, rfl⟩ rfl
    (fun _ h1 h2 => absurd h2 (by simp only [List.length_cons, List.length_nil]; omega))

end BytePS
